import Mathlib

/-!
The TTL cache of `main.go` (go_arrow_cache_cpu).

A shallow embedding of `Cache` (`NewCache`, `SetWithArrow`, `Get`,
`CleanExpiredItems`) and the properties of its contract.

Modelling decisions.

* `time.Time` is an instant counted in nanoseconds (`Int`, unbounded), `time.Duration` a
  signed number of nanoseconds (`Int`); `Time.Add` is addition and `Time.After` is the
  strict order `>`.  `time.Now()` is an input of every operation: the reading taken while
  the lock is held.
* `[]byte` is the list of its bytes; the `nil` slice is the empty list.
* `map[string]CacheItem` is a finite map (`Finmap`): finitely many keys, at most one
  entry per key, no order on the keys.
* The `sync.RWMutex` makes every operation one atomic step on the map, so an execution is
  a sequence of steps, each with its own clock reading(s).
* The order in which `range` visits the keys of a Go map is not specified, and
  `CleanExpiredItems` reads the clock once per iteration: a sweep is therefore driven by
  the list of its visits (key, clock reading).
-/

namespace ArrowCache

/-- A `time.Time`: an instant, in nanoseconds. -/
abbrev Time := Int

/-- A `time.Duration`: a signed number of nanoseconds. -/
abbrev Duration := Int

/-- A `[]byte`. -/
abbrev Bytes := List (Fin 256)

/-- The method `Time.Add`. -/
def Time.Add (t : Time) (d : Duration) : Time := t + d

/-- The method `Time.After`: `t.After(u)` reports whether `t` is strictly after `u`. -/
def Time.After (t u : Time) : Bool := decide (u < t)

/-- The struct `CacheItem`. -/
structure CacheItem where
  Value : Bytes
  ExpiresAt : Time
deriving DecidableEq, Repr

/-- The field `items` of `Cache`: a `map[string]CacheItem`. -/
abbrev Items := Finmap (fun _ : String => CacheItem)

/-- The struct `Cache` (the lock and the allocator hold no data of the contract). -/
structure Cache where
  items : Items

/-- Modelled from the spec: the binary column of the Arrow library
(`github.com/apache/arrow/go/v14/arrow/array`, which is not among the sources).  A binary
column is a buffer of value bytes and a buffer of offsets; element `i` occupies the bytes
from offset `i` up to offset `i + 1`.  The spec describes the column only as a device
"to copy bytes out"; offsets are unbounded naturals here. -/
structure BinaryColumn where
  offsets : List Nat
  values : Bytes
deriving DecidableEq, Repr

/-- Modelled from the spec: `array.NewBinaryBuilder`, a builder with nothing appended. -/
def NewBinaryBuilder : BinaryColumn := ⟨[], []⟩

/-- Modelled from the spec: `BinaryBuilder.Append`, which records the current end of the
value buffer as the start of the new element and appends its bytes. -/
def BinaryColumn.Append (b : BinaryColumn) (v : Bytes) : BinaryColumn :=
  ⟨b.offsets ++ [b.values.length], b.values ++ v⟩

/-- Modelled from the spec: `BinaryBuilder.NewArray`, which closes the last element with
the final offset. -/
def BinaryColumn.NewArray (b : BinaryColumn) : BinaryColumn :=
  ⟨b.offsets ++ [b.values.length], b.values⟩

/-- Modelled from the spec: `Binary.Value(i)`, the bytes between offsets `i` and `i + 1`. -/
def BinaryColumn.Value (a : BinaryColumn) (i : Nat) : Bytes :=
  let lo := a.offsets.getD i 0
  let hi := a.offsets.getD (i + 1) 0
  (a.values.drop lo).take (hi - lo)

/-- The function `NewCache`: an empty map. -/
def NewCache : Cache := ⟨∅⟩

/-- The method `Cache.SetWithArrow`, with `now` the reading of `time.Now()` taken under
the lock: a one-element column is built from `value`, and element 0 of it is stored for
`key` with the expiry `now.Add(ttl)`. -/
def Cache.SetWithArrow (c : Cache) (key : String) (value : Bytes) (ttl : Duration)
    (now : Time) : Cache :=
  let builder := NewBinaryBuilder
  let builder := builder.Append value
  let arr := builder.NewArray
  ⟨c.items.insert key { Value := arr.Value 0, ExpiresAt := Time.Add now ttl }⟩

/-- The method `Cache.Get`, with `now` the reading of `time.Now()`: the pair
(value, found) it returns; `nil` is the empty list. -/
def Cache.Get (c : Cache) (key : String) (now : Time) : Bytes × Bool :=
  match c.items.lookup key with
  | none => ([], false)
  | some item => if Time.After now item.ExpiresAt then ([], false) else (item.Value, true)

/-- One iteration of the loop of `CleanExpiredItems`, at key `k` with clock reading `now`:
the entry is deleted when `now` is after its expiry.  A key that is not in the map is not
produced by `range`, so nothing happens there. -/
def cleanStep (items : Items) (k : String) (now : Time) : Items :=
  match items.lookup k with
  | none => items
  | some v => if Time.After now v.ExpiresAt then items.erase k else items

/-- The method `Cache.CleanExpiredItems`: the loop over the map, run along `visits`, the
keys in the order `range` produces them, each with the clock reading of its iteration. -/
def Cache.CleanExpiredItems (c : Cache) (visits : List (String × Time)) : Cache :=
  ⟨visits.foldl (fun m kt => cleanStep m kt.1 kt.2) c.items⟩

/-- A sweep whose clock readings are all the same instant `now`, visiting `order`. -/
def sweepAt (order : List String) (now : Time) : List (String × Time) :=
  order.map (fun k => (k, now))

/-- The number of entries of the map, `len(c.items)`. -/
def Cache.len (c : Cache) : Nat := c.items.keys.card

/-- The visits `range` can make on cache `c`: every key of the map exactly once. -/
def IsRange (c : Cache) (visits : List (String × Time)) : Prop :=
  (visits.map Prod.fst).Nodup ∧ (visits.map Prod.fst).toFinset = c.items.keys

instance (c : Cache) (visits : List (String × Time)) : Decidable (IsRange c visits) :=
  inferInstanceAs (Decidable (_ ∧ _))

/-- A cache holding "a", which expires at 50, and "b", which expires at 60. -/
def sampleCache : Cache := ⟨(Finmap.singleton "a" ⟨[104], 50⟩).insert "b" ⟨[105], 60⟩⟩

/-- An atomic step on the cache: each operation runs under the lock of the cache, with
the clock reading(s) it takes there. -/
inductive Op where
  | set (key : String) (value : Bytes) (ttl : Duration) (now : Time)
  | get (key : String) (now : Time)
  | clean (visits : List (String × Time))

/-- The effect of one atomic step on the cache (`Get` leaves it as it is). -/
def Op.apply (c : Cache) : Op → Cache
  | .set key value ttl now => c.SetWithArrow key value ttl now
  | .get _ _ => c
  | .clean visits => c.CleanExpiredItems visits

/-- A sequence of atomic steps, in the order in which they take the lock. -/
def run (c : Cache) (ops : List Op) : Cache := ops.foldl Op.apply c

/-- Whether the step is a `SetWithArrow` on key `k`. -/
def Op.isSetOn (k : String) : Op → Bool
  | .set key _ _ _ => key == k
  | _ => false

/-- The clock readings a step takes while sweeping (none for `SetWithArrow` and `Get`). -/
def Op.sweepReadings : Op → List Time
  | .clean visits => visits.map Prod.snd
  | _ => []

/-- The steps `SetWithArrow(key, value, ttl)` for a list of (key, value, clock reading of
the set), in the order of the list: what the goroutines of `BenchmarkSet` do, in the order
in which they take the lock. -/
def setAll (c : Cache) (ttl : Duration) (sets : List (String × Bytes × Time)) : Cache :=
  run c (sets.map (fun x => Op.set x.1 x.2.1 ttl x.2.2))

/-- Whether the step is a `Get`. -/
def Op.isGet : Op → Bool
  | .get _ _ => true
  | _ => false

/-- A finite sequence of `SetWithArrow` steps, each given as (key, value, ttl, clock
reading of the set), in the order in which they take the lock. -/
def setSeq (sets : List (String × Bytes × Duration × Time)) : List Op :=
  sets.map (fun x => Op.set x.1 x.2.1 x.2.2.1 x.2.2.2)

/-! ## Byte slices as references

The definitions above take a `[]byte` for its contents.  To speak of aliasing, the same
operations are given a second time over a memory of backing arrays, a `[]byte` being a
slice value that points into one of them. -/

/-- A Go slice value: the backing array it points into (by its address in the memory),
the offset of its first byte in that array, and its length. -/
structure Slice where
  buf : Nat
  off : Nat
  len : Nat
deriving DecidableEq, Repr

/-- The `nil` slice: no bytes. -/
def Slice.nil : Slice := ⟨0, 0, 0⟩

/-- The memory of byte arrays: the contents of the backing array at each address, and the
next free address (every address below it is allocated). -/
structure Memory where
  arrays : Nat → Bytes
  next : Nat

/-- The bytes a slice shows in a memory. -/
def Memory.read (m : Memory) (s : Slice) : Bytes := ((m.arrays s.buf).drop s.off).take s.len

/-- The Go assignment `s[i] = b` made by whoever holds the slice `s`: byte `i` of the
slice, which is byte `off + i` of its backing array, is overwritten; an index out of range
panics (`none`). -/
def Memory.write (m : Memory) (s : Slice) (i : Nat) (b : Fin 256) : Option Memory :=
  if i < s.len then
    some ⟨Function.update m.arrays s.buf ((m.arrays s.buf).set (s.off + i) b), m.next⟩
  else none

/-- Modelled from the spec: `Binary.Value(i)` as a slice value, for a column whose value
buffer lies at address `buf`: the part of that buffer between offsets `i` and `i + 1`, not
a copy of it. -/
def BinaryColumn.ValueSlice (a : BinaryColumn) (buf : Nat) (i : Nat) : Slice :=
  ⟨buf, a.offsets.getD i 0, a.offsets.getD (i + 1) 0 - a.offsets.getD i 0⟩

/-- The struct `CacheItem`, its `Value` a slice value. -/
structure SliceItem where
  Value : Slice
  ExpiresAt : Time
deriving DecidableEq, Repr

/-- The struct `Cache` together with the memory its slices point into. -/
structure MemCache where
  memory : Memory
  items : Finmap (fun _ : String => SliceItem)

/-- The method `Cache.SetWithArrow` over the memory: the builder copies the bytes of
`value` into its own value buffer (modelled from the spec, which has the column "copy
bytes out"), a newly allocated array; the slice `Value(0)` of that buffer is stored. -/
def MemCache.SetWithArrow (c : MemCache) (key : String) (value : Slice) (ttl : Duration)
    (now : Time) : MemCache :=
  let builder := NewBinaryBuilder
  let builder := builder.Append (c.memory.read value)
  let arr := builder.NewArray
  { memory := ⟨Function.update c.memory.arrays c.memory.next arr.values, c.memory.next + 1⟩,
    items := c.items.insert key
      { Value := arr.ValueSlice c.memory.next 0, ExpiresAt := Time.Add now ttl } }

/-- The method `Cache.Get` over the memory: the slice value it returns is `item.Value`
itself. -/
def MemCache.Get (c : MemCache) (key : String) (now : Time) : Slice × Bool :=
  match c.items.lookup key with
  | none => (Slice.nil, false)
  | some item => if Time.After now item.ExpiresAt then (Slice.nil, false) else (item.Value, true)

/-- What a caller of `Get` sees: the bytes of the returned slice, and `found`. -/
def MemCache.GetBytes (c : MemCache) (key : String) (now : Time) : Bytes × Bool :=
  (c.memory.read (c.Get key now).1, (c.Get key now).2)

/-- A caller assigns `s[i] = b` on a slice it holds; the map is not touched. -/
def MemCache.callerWrite (c : MemCache) (s : Slice) (i : Nat) (b : Fin 256) :
    Option MemCache :=
  (c.memory.write s i b).map (fun m => { memory := m, items := c.items })

/-- A memory holding the two bytes of "hi" at address 0, and an empty map. -/
def sampleMemCache : MemCache := ⟨⟨fun a => if a = 0 then [104, 105] else [], 1⟩, ∅⟩

/-! ## Lemmas on the embedding -/

theorem Cache.eq_of_items (c d : Cache) (h : c.items = d.items) : c = d := by
  cases c; cases d; cases h; rfl

theorem arrow_roundtrip (v : Bytes) : ((NewBinaryBuilder.Append v).NewArray).Value 0 = v := by
  simp [NewBinaryBuilder, BinaryColumn.Append, BinaryColumn.NewArray, BinaryColumn.Value]

theorem items_SetWithArrow (c : Cache) (key : String) (value : Bytes) (ttl : Duration)
    (now : Time) :
    (c.SetWithArrow key value ttl now).items = c.items.insert key ⟨value, now + ttl⟩ := by
  have h := arrow_roundtrip value
  simp only [Cache.SetWithArrow, Time.Add]
  rw [h]

theorem lookup_SetWithArrow_self (c : Cache) (key : String) (value : Bytes) (ttl : Duration)
    (now : Time) :
    (c.SetWithArrow key value ttl now).items.lookup key = some ⟨value, now + ttl⟩ := by
  rw [items_SetWithArrow, Finmap.lookup_insert]

theorem lookup_SetWithArrow_ne (c : Cache) (key : String) (value : Bytes) (ttl : Duration)
    (now : Time) (j : String) (h : j ≠ key) :
    (c.SetWithArrow key value ttl now).items.lookup j = c.items.lookup j := by
  rw [items_SetWithArrow, Finmap.lookup_insert_of_ne _ h]

/-- The result of `Get` depends on the map only through the entry stored for the key. -/
theorem Get_congr (c d : Cache) (k : String) (now : Time)
    (h : c.items.lookup k = d.items.lookup k) : c.Get k now = d.Get k now := by
  simp only [Cache.Get, h]

theorem Get_of_lookup_none (c : Cache) (k : String) (now : Time)
    (h : c.items.lookup k = none) : c.Get k now = ([], false) := by
  simp only [Cache.Get, h]

theorem Get_of_lookup_some (c : Cache) (k : String) (now : Time) (item : CacheItem)
    (h : c.items.lookup k = some item) :
    c.Get k now = if now ≤ item.ExpiresAt then (item.Value, true) else ([], false) := by
  simp only [Cache.Get, h, Time.After]
  by_cases hle : now ≤ item.ExpiresAt
  · simp [hle, not_lt.mpr hle]
  · simp [hle, not_le.mp hle]

theorem After_iff (t u : Time) : Time.After t u = true ↔ u < t := by
  simp [Time.After]

/-- One iteration of the sweep leaves the other keys alone. -/
theorem lookup_cleanStep_ne (m : Items) (k : String) (now : Time) (j : String) (h : j ≠ k) :
    (cleanStep m k now).lookup j = m.lookup j := by
  unfold cleanStep
  cases hl : m.lookup k with
  | none => rfl
  | some v =>
    by_cases ha : Time.After now v.ExpiresAt = true
    · simp [ha, Finmap.lookup_erase_ne h]
    · simp [ha]

/-- One iteration of the sweep at a key without entry does nothing. -/
theorem lookup_cleanStep_none (m : Items) (k : String) (now : Time)
    (h : m.lookup k = none) : (cleanStep m k now).lookup k = none := by
  unfold cleanStep
  simp [h]

/-- One iteration of the sweep at a key with an entry: the entry stays, unchanged, unless
the clock reading is after its expiry. -/
theorem lookup_cleanStep_some (m : Items) (k : String) (now : Time) (v : CacheItem)
    (h : m.lookup k = some v) :
    (cleanStep m k now).lookup k = if now ≤ v.ExpiresAt then some v else none := by
  unfold cleanStep
  by_cases hle : now ≤ v.ExpiresAt
  · have ha : Time.After now v.ExpiresAt = false := by simp [Time.After, hle]
    simp [h, ha, hle]
  · have ha : Time.After now v.ExpiresAt = true := by
      simp only [After_iff]; exact not_le.mp hle
    simp [h, ha, hle, Finmap.lookup_erase]

/-- A sweep never creates an entry. -/
theorem lookup_CleanExpiredItems_none (c : Cache) (visits : List (String × Time)) (j : String)
    (h : c.items.lookup j = none) : (c.CleanExpiredItems visits).items.lookup j = none := by
  obtain ⟨m⟩ := c
  simp only [Cache.CleanExpiredItems] at h ⊢
  induction visits generalizing m with
  | nil => simpa using h
  | cons kt rest ih =>
    rw [List.foldl_cons]
    apply ih
    by_cases hjk : j = kt.1
    · subst hjk; exact lookup_cleanStep_none m _ kt.2 h
    · rw [lookup_cleanStep_ne m kt.1 kt.2 j hjk]; exact h

/-- The sweep, seen from a key `j` that has an entry: the entry survives, unchanged,
exactly when no visit of `j` read a clock after its expiry. -/
theorem lookup_CleanExpiredItems_some (c : Cache) (visits : List (String × Time)) (j : String)
    (v : CacheItem) (h : c.items.lookup j = some v) :
    (c.CleanExpiredItems visits).items.lookup j =
      if ∀ kt ∈ visits, kt.1 = j → kt.2 ≤ v.ExpiresAt then some v else none := by
  obtain ⟨m⟩ := c
  simp only [Cache.CleanExpiredItems] at h ⊢
  induction visits generalizing m with
  | nil => simpa using h
  | cons kt rest ih =>
    rw [List.foldl_cons]
    by_cases hjk : j = kt.1
    · by_cases hle : kt.2 ≤ v.ExpiresAt
      · have hstep : (cleanStep m kt.1 kt.2).lookup j = some v := by
          subst hjk; rw [lookup_cleanStep_some m _ kt.2 v h, if_pos hle]
        rw [ih _ hstep]
        by_cases hall : ∀ kt ∈ rest, kt.1 = j → kt.2 ≤ v.ExpiresAt
        · rw [if_pos hall, if_pos]
          intro x hx hxj
          rcases List.mem_cons.mp hx with rfl | hx
          · exact hle
          · exact hall x hx hxj
        · rw [if_neg hall, if_neg]
          intro hcons
          exact hall (fun x hx hxj => hcons x (List.mem_cons_of_mem _ hx) hxj)
      · have hstep : (cleanStep m kt.1 kt.2).lookup j = none := by
          subst hjk; rw [lookup_cleanStep_some m _ kt.2 v h, if_neg hle]
        have hnone := lookup_CleanExpiredItems_none ⟨cleanStep m kt.1 kt.2⟩ rest j hstep
        simp only [Cache.CleanExpiredItems] at hnone
        rw [hnone, if_neg]
        intro hcons
        exact hle (hcons kt (List.mem_cons_self _ _) hjk.symm)
    · have hstep : (cleanStep m kt.1 kt.2).lookup j = some v := by
        rw [lookup_cleanStep_ne m kt.1 kt.2 j hjk]; exact h
      rw [ih _ hstep]
      by_cases hall : ∀ kt ∈ rest, kt.1 = j → kt.2 ≤ v.ExpiresAt
      · rw [if_pos hall, if_pos]
        intro x hx hxj
        rcases List.mem_cons.mp hx with rfl | hx
        · exact absurd hxj.symm hjk
        · exact hall x hx hxj
      · rw [if_neg hall, if_neg]
        intro hcons
        exact hall (fun x hx hxj => hcons x (List.mem_cons_of_mem _ hx) hxj)

/-- A sequence of steps without a `SetWithArrow` on `k` either leaves the entry of `k`
as it was or has removed it. -/
theorem lookup_run_noSet (c : Cache) (k : String) (ops : List Op)
    (hops : ∀ op ∈ ops, Op.isSetOn k op = false) :
    (run c ops).items.lookup k = none ∨ (run c ops).items.lookup k = c.items.lookup k := by
  induction ops generalizing c with
  | nil => exact Or.inr rfl
  | cons op rest ih =>
    have hrest : ∀ o ∈ rest, Op.isSetOn k o = false :=
      fun o ho => hops o (List.mem_cons_of_mem _ ho)
    have hop := hops op (List.mem_cons_self _ _)
    have hstep : (Op.apply c op).items.lookup k = none ∨
        (Op.apply c op).items.lookup k = c.items.lookup k := by
      cases op with
      | set key value ttl now =>
        have hne : k ≠ key := by
          intro h; subst h; simp [Op.isSetOn] at hop
        exact Or.inr (lookup_SetWithArrow_ne c key value ttl now k hne)
      | get key now => exact Or.inr rfl
      | clean visits =>
        cases hl : c.items.lookup k with
        | none => exact Or.inl (lookup_CleanExpiredItems_none c visits k hl)
        | some item =>
          simp only [Op.apply]
          rw [lookup_CleanExpiredItems_some c visits k item hl]
          by_cases hall : ∀ kt ∈ visits, kt.1 = k → kt.2 ≤ item.ExpiresAt
          · exact Or.inr (if_pos hall)
          · exact Or.inl (if_neg hall)
    show (run (Op.apply c op) rest).items.lookup k = none ∨ _
    rcases ih (Op.apply c op) hrest with h | h
    · exact Or.inl h
    · rcases hstep with h1 | h1
      · exact Or.inl (h.trans h1)
      · exact Or.inr (h.trans h1)

/-- A sequence of steps without a `SetWithArrow` on `k` whose sweeps all read the clock at
or before the expiry of the entry of `k` leaves that entry in place, unchanged. -/
theorem lookup_run_live (c : Cache) (k : String) (ops : List Op) (item : CacheItem)
    (hl : c.items.lookup k = some item)
    (hops : ∀ op ∈ ops, Op.isSetOn k op = false)
    (hclock : ∀ op ∈ ops, ∀ r ∈ Op.sweepReadings op, r ≤ item.ExpiresAt) :
    (run c ops).items.lookup k = some item := by
  induction ops generalizing c with
  | nil => exact hl
  | cons op rest ih =>
    have hop := hops op (List.mem_cons_self _ _)
    have hcl := hclock op (List.mem_cons_self _ _)
    have hstep : (Op.apply c op).items.lookup k = some item := by
      cases op with
      | set key value ttl now =>
        have hne : k ≠ key := by
          intro h; subst h; simp [Op.isSetOn] at hop
        exact (lookup_SetWithArrow_ne c key value ttl now k hne).trans hl
      | get key now => exact hl
      | clean visits =>
        simp only [Op.apply]
        rw [lookup_CleanExpiredItems_some c visits k item hl, if_pos]
        intro kt hkt _
        exact hcl kt.2 (List.mem_map_of_mem Prod.snd hkt)
    exact ih (Op.apply c op) hstep (fun o ho => hops o (List.mem_cons_of_mem _ ho))
      (fun o ho => hclock o (List.mem_cons_of_mem _ ho))

theorem setAll_cons (c : Cache) (ttl : Duration) (x : String × Bytes × Time)
    (rest : List (String × Bytes × Time)) :
    setAll c ttl (x :: rest) = setAll (c.SetWithArrow x.1 x.2.1 ttl x.2.2) ttl rest := rfl

/-- Sets on other keys leave the entry of `k` as it was. -/
theorem lookup_setAll_of_not_mem (c : Cache) (ttl : Duration)
    (sets : List (String × Bytes × Time)) (k : String)
    (h : k ∉ sets.map (fun x => x.1)) :
    (setAll c ttl sets).items.lookup k = c.items.lookup k := by
  induction sets generalizing c with
  | nil => rfl
  | cons x rest ih =>
    rw [setAll_cons, ih _ (fun hk => h (List.mem_cons_of_mem _ hk))]
    apply lookup_SetWithArrow_ne
    intro hk
    exact h (by simp [hk])

/-- After sets on pairwise distinct keys every key holds the entry of its own set. -/
theorem lookup_setAll_of_mem (c : Cache) (ttl : Duration)
    (sets : List (String × Bytes × Time)) (hnodup : (sets.map (fun x => x.1)).Nodup)
    (x : String × Bytes × Time) (hx : x ∈ sets) :
    (setAll c ttl sets).items.lookup x.1 = some ⟨x.2.1, x.2.2 + ttl⟩ := by
  induction sets generalizing c with
  | nil => cases hx
  | cons y rest ih =>
    rw [List.map_cons, List.nodup_cons] at hnodup
    rw [setAll_cons]
    rcases List.mem_cons.mp hx with rfl | hmem
    · rw [lookup_setAll_of_not_mem _ ttl rest x.1 hnodup.1]
      exact lookup_SetWithArrow_self c x.1 x.2.1 ttl x.2.2
    · exact ih _ hnodup.2 hmem

/-- The keys of the map after a list of sets: the keys it had and the keys set. -/
theorem keys_setAll (c : Cache) (ttl : Duration) (sets : List (String × Bytes × Time)) :
    (setAll c ttl sets).items.keys = c.items.keys ∪ (sets.map (fun x => x.1)).toFinset := by
  induction sets generalizing c with
  | nil => simp [setAll, run]
  | cons x rest ih =>
    rw [setAll_cons, ih, items_SetWithArrow]
    ext k
    simp only [Finset.mem_union, Finmap.mem_keys, Finmap.mem_insert, List.mem_toFinset,
      List.map_cons, List.mem_cons]
    tauto

theorem run_append (c : Cache) (ops1 ops2 : List Op) :
    run c (ops1 ++ ops2) = run (run c ops1) ops2 := by
  simp [run, List.foldl_append]

/-- A sweep at one instant `t`, seen from a key with an entry: the entry stays, unchanged,
unless the key is visited and `t` is after its expiry. -/
theorem lookup_sweepAt_some (c : Cache) (order : List String) (t : Time) (j : String)
    (v : CacheItem) (h : c.items.lookup j = some v) :
    (c.CleanExpiredItems (sweepAt order t)).items.lookup j =
      if j ∈ order → t ≤ v.ExpiresAt then some v else none := by
  rw [lookup_CleanExpiredItems_some c (sweepAt order t) j v h]
  have hiff : (∀ kt ∈ sweepAt order t, kt.1 = j → kt.2 ≤ v.ExpiresAt) ↔
      (j ∈ order → t ≤ v.ExpiresAt) := by
    constructor
    · intro hall hj
      exact hall (j, t) (List.mem_map.mpr ⟨j, hj, rfl⟩) rfl
    · intro himp kt hkt hk
      obtain ⟨k, hkmem, hkeq⟩ := List.mem_map.mp hkt
      subst hkeq
      simp only at hk
      subst hk
      exact himp hkmem
  by_cases hc : j ∈ order → t ≤ v.ExpiresAt
  · rw [if_pos hc, if_pos (hiff.mpr hc)]
  · rw [if_neg hc, if_neg (fun h => hc (hiff.mp h))]

/-- The keys a sweep at one instant visits, when it is a `range` over the map. -/
theorem mem_order_of_IsRange (c : Cache) (order : List String) (t : Time)
    (hrange : IsRange c (sweepAt order t)) (j : String) (v : CacheItem)
    (h : c.items.lookup j = some v) : j ∈ order := by
  have hmem : j ∈ ((sweepAt order t).map Prod.fst).toFinset := by
    rw [hrange.2]
    exact Finmap.mem_keys.mpr (Finmap.mem_of_lookup_eq_some h)
  obtain ⟨kt, hkt, hk⟩ := List.mem_map.mp (List.mem_toFinset.mp hmem)
  obtain ⟨k, hkmem, hkeq⟩ := List.mem_map.mp hkt
  subst hkeq
  simp only at hk
  subst hk
  exact hkmem

theorem MemCache.Get_of_items_lookup (c : MemCache) (k : String) (now : Time)
    (item : SliceItem) (h : c.items.lookup k = some item) :
    c.Get k now = if now ≤ item.ExpiresAt then (item.Value, true) else (Slice.nil, false) := by
  simp only [MemCache.Get, h, Time.After]
  by_cases hle : now ≤ item.ExpiresAt
  · simp [hle, not_lt.mpr hle]
  · simp [hle, not_le.mp hle]

theorem Memory.read_nil (m : Memory) : m.read Slice.nil = [] := by
  simp [Memory.read, Slice.nil]

/-- The entry `SetWithArrow` stores: the whole of the newly allocated buffer. -/
theorem MemCache.lookup_SetWithArrow (c : MemCache) (key : String) (value : Slice)
    (ttl : Duration) (now : Time) :
    (c.SetWithArrow key value ttl now).items.lookup key
      = some ⟨⟨c.memory.next, 0, (c.memory.read value).length⟩, now + ttl⟩ := by
  simp [MemCache.SetWithArrow, Finmap.lookup_insert, BinaryColumn.ValueSlice,
    NewBinaryBuilder, BinaryColumn.Append, BinaryColumn.NewArray, Time.Add]

/-- The buffer `SetWithArrow` allocates holds the bytes of the value. -/
theorem MemCache.arrays_SetWithArrow (c : MemCache) (key : String) (value : Slice)
    (ttl : Duration) (now : Time) :
    (c.SetWithArrow key value ttl now).memory.arrays c.memory.next = c.memory.read value := by
  simp [MemCache.SetWithArrow, NewBinaryBuilder, BinaryColumn.Append, BinaryColumn.NewArray]

/-! ## The contract -/

/-- C1 (amended). For every cache state, key and current time `now`, `Get(key)` returns
`(value, true)` if and only if the map holds an entry for `key` with that value whose
`ExpiresAt` is at or after `now` (`now` is not after `ExpiresAt`); in every other case it
returns `(nil, false)`.  At the instant `now = ExpiresAt` the result is `(value, true)`. -/
theorem Get_found_iff (c : Cache) (key : String) (now : Time) :
    (∀ v, c.Get key now = (v, true) ↔
      ∃ item, c.items.lookup key = some item ∧ item.Value = v ∧ now ≤ item.ExpiresAt) ∧
    ((¬ ∃ item, c.items.lookup key = some item ∧ now ≤ item.ExpiresAt) →
      c.Get key now = ([], false)) ∧
    (∀ item, c.items.lookup key = some item → item.ExpiresAt = now →
      c.Get key now = (item.Value, true)) := by
  cases hl : c.items.lookup key with
  | none =>
    refine ⟨fun v => ?_, fun _ => Get_of_lookup_none c key now hl, fun item h => by simp at h⟩
    rw [Get_of_lookup_none c key now hl]
    simp
  | some item =>
    rw [Get_of_lookup_some c key now item hl]
    refine ⟨fun v => ?_, fun h => ?_, fun item2 h2 h3 => ?_⟩
    · by_cases hle : now ≤ item.ExpiresAt
      · simp [hle]
      · simp [hle]
    · have hnle : ¬ now ≤ item.ExpiresAt := fun hle => h ⟨item, rfl, hle⟩
      rw [if_neg hnle]
    · cases h2
      rw [if_pos (le_of_eq h3.symm)]

/-- C1, concrete evidence: the entry of "a" expires at 50; `Get("a")` at 50 returns the
value with `true`. -/
theorem Get_found_iff_witness :
    (⟨Finmap.singleton "a" ⟨[104, 105], 50⟩⟩ : Cache).Get "a" 50 = ([104, 105], true) :=
  (Get_found_iff ⟨Finmap.singleton "a" ⟨[104, 105], 50⟩⟩ "a" 50).2.2 ⟨[104, 105], 50⟩
    (by decide) rfl

/-- C1 as stated fails: the map holds for "a" an entry with `ExpiresAt = 50`, which is not
strictly after `now = 50`, and `Get("a")` at 50 returns `(value, true)`, not `(nil, false)`. -/
theorem Get_at_expiry_instant :
    (⟨Finmap.singleton "a" ⟨[104, 105], 50⟩⟩ : Cache).items.lookup "a"
      = some ⟨[104, 105], 50⟩ ∧
    (⟨Finmap.singleton "a" ⟨[104, 105], 50⟩⟩ : Cache).Get "a" 50 = ([104, 105], true) ∧
    (⟨Finmap.singleton "a" ⟨[104, 105], 50⟩⟩ : Cache).Get "a" 50 ≠ ([], false) ∧
    ¬ ((⟨Finmap.singleton "a" ⟨[104, 105], 50⟩⟩ : Cache).Get "a" 50 = ([104, 105], true) ↔
        ∃ item, (⟨Finmap.singleton "a" ⟨[104, 105], 50⟩⟩ : Cache).items.lookup "a" = some item ∧
          (50 : Time) < item.ExpiresAt) := by
  refine ⟨by decide, by decide, by decide, ?_⟩
  intro h
  obtain ⟨item, hitem, hlt⟩ := h.mp (by decide)
  have h1 : (⟨Finmap.singleton "a" ⟨[104, 105], 50⟩⟩ : Cache).items.lookup "a"
      = some ⟨[104, 105], 50⟩ := by decide
  rw [h1] at hitem
  cases hitem
  exact absurd hlt (by decide)

/-- C2 (amended), P1 expiry correctness. For every cache state, key `k`, value `v` and
`ttl` (zero included), if `SetWithArrow(k, v, ttl)` runs at time `t0` and no later step
sets `k` (the steps in between are sets on other keys, gets and sweeps, the sweeps reading
the clock at or before the check), then `Get(k)` checked at a time `t <= t0 + ttl` returns
`(v, true)`, the instant `t = t0 + ttl` included, and `Get(k)` checked at a time
`t > t0 + ttl` returns `(nil, false)`. -/
theorem Set_then_Get (c : Cache) (k : String) (v : Bytes) (ttl : Duration) (t0 : Time)
    (ops : List Op) (t : Time)
    (hops : ∀ op ∈ ops, Op.isSetOn k op = false)
    (hclock : ∀ op ∈ ops, ∀ r ∈ Op.sweepReadings op, r ≤ t) :
    (t ≤ t0 + ttl → (run (c.SetWithArrow k v ttl t0) ops).Get k t = (v, true)) ∧
    (t0 + ttl < t → (run (c.SetWithArrow k v ttl t0) ops).Get k t = ([], false)) := by
  have hset := lookup_SetWithArrow_self c k v ttl t0
  constructor
  · intro hle
    have hlive := lookup_run_live (c.SetWithArrow k v ttl t0) k ops ⟨v, t0 + ttl⟩ hset hops
      (fun op hop r hr => le_trans (hclock op hop r hr) hle)
    rw [Get_of_lookup_some _ k t _ hlive, if_pos hle]
  · intro hlt
    rcases lookup_run_noSet (c.SetWithArrow k v ttl t0) k ops hops with h | h
    · exact Get_of_lookup_none _ k t h
    · rw [Get_of_lookup_some _ k t ⟨v, t0 + ttl⟩ (h.trans hset), if_neg (not_le.mpr hlt)]

/-- C2, concrete evidence: "a" is set for 50 at time 0, then "b" is set and a sweep runs
at time 20; `Get("a")` at 50 finds the value, at 51 it does not. -/
theorem Set_then_Get_witness :
    (run (NewCache.SetWithArrow "a" [104, 105] 50 0)
        [.set "b" [] 5 10, .clean [("b", 20), ("a", 20)]]).Get "a" 50 = ([104, 105], true) ∧
    (run (NewCache.SetWithArrow "a" [104, 105] 50 0)
        [.set "b" [] 5 10, .clean [("b", 20), ("a", 20)]]).Get "a" 51 = ([], false) :=
  ⟨(Set_then_Get NewCache "a" [104, 105] 50 0
      [.set "b" [] 5 10, .clean [("b", 20), ("a", 20)]] 50 (by decide) (by decide)).1
        (by decide),
   (Set_then_Get NewCache "a" [104, 105] 50 0
      [.set "b" [] 5 10, .clean [("b", 20), ("a", 20)]] 51 (by decide) (by decide)).2
        (by decide)⟩

/-- C2 as stated fails at `t = t0 + ttl`: after `SetWithArrow("a", v, 50)` at time 0,
`Get("a")` checked at time 50 returns `(v, true)`; and with `ttl = 0`, `Get("a")` checked
at the instant of the set returns `(v, true)`. -/
theorem Get_at_ttl_boundary :
    (NewCache.SetWithArrow "a" [104, 105] 50 0).Get "a" (0 + 50) = ([104, 105], true) ∧
    (NewCache.SetWithArrow "a" [104, 105] 0 7).Get "a" (7 + 0) = ([104, 105], true) := by
  constructor <;> decide

/-- C3. After `SetWithArrow(key, value, ttl)` executed at time `now` the map holds for
`key` exactly the entry with `Value = value` and `ExpiresAt = now + ttl`, whatever was
stored for `key` before; building a one-element binary column from `value` and reading
element 0 back gives `value`. -/
theorem SetWithArrow_post (c : Cache) (key : String) (value : Bytes) (ttl : Duration)
    (now : Time) :
    (c.SetWithArrow key value ttl now).items.lookup key
      = some { Value := value, ExpiresAt := now + ttl } ∧
    ((NewBinaryBuilder.Append value).NewArray).Value 0 = value :=
  ⟨lookup_SetWithArrow_self c key value ttl now, arrow_roundtrip value⟩

/-- C4 (amended). For every cache state and scan time `now`, after a sweep that visits
every key of the map and reads the clock at or after `now`, the map contains no entry
whose `ExpiresAt` is strictly before `now`; an entry with `ExpiresAt = now` exactly is
not removed by a sweep that reads `now`. -/
theorem CleanExpiredItems_removes_expired (c : Cache) (visits : List (String × Time))
    (now : Time) (hrange : IsRange c visits) (hclock : ∀ kt ∈ visits, now ≤ kt.2) :
    (∀ k item, (c.CleanExpiredItems visits).items.lookup k = some item →
      now ≤ item.ExpiresAt) ∧
    ((∀ kt ∈ visits, kt.2 = now) → ∀ k item, c.items.lookup k = some item →
      item.ExpiresAt = now → (c.CleanExpiredItems visits).items.lookup k = some item) := by
  constructor
  · intro k item hsw
    cases hl : c.items.lookup k with
    | none =>
      rw [lookup_CleanExpiredItems_none c visits k hl] at hsw
      cases hsw
    | some old =>
      rw [lookup_CleanExpiredItems_some c visits k old hl] at hsw
      by_cases hall : ∀ kt ∈ visits, kt.1 = k → kt.2 ≤ old.ExpiresAt
      · rw [if_pos hall] at hsw
        cases hsw
        have hmem : k ∈ (visits.map Prod.fst).toFinset := by
          rw [hrange.2, Finmap.mem_keys]
          exact Finmap.mem_of_lookup_eq_some hl
        obtain ⟨kt, hkt, hk⟩ := List.mem_map.mp (List.mem_toFinset.mp hmem)
        exact le_trans (hclock kt hkt) (hall kt hkt hk)
      · rw [if_neg hall] at hsw
        cases hsw
  · intro hnow k item hl hexp
    rw [lookup_CleanExpiredItems_some c visits k item hl, if_pos]
    intro kt hkt _
    rw [hnow kt hkt, hexp]

/-- C4, concrete evidence: a sweep at time 60 over "a" (expiring at 50) and "b" (expiring
at 60) keeps "b", which does not expire before 60. -/
theorem CleanExpiredItems_removes_expired_witness :
    IsRange sampleCache [("b", 60), ("a", 60)] ∧
    (sampleCache.CleanExpiredItems [("b", 60), ("a", 60)]).items.lookup "b"
      = some ⟨[105], 60⟩ ∧
    (60 : Time) ≤ (⟨[105], 60⟩ : CacheItem).ExpiresAt := by
  have h := CleanExpiredItems_removes_expired sampleCache [("b", 60), ("a", 60)] 60
    (by decide) (by decide)
  have hb := h.2 (by decide) "b" ⟨[105], 60⟩ (by decide) rfl
  exact ⟨by decide, hb, h.1 "b" ⟨[105], 60⟩ hb⟩

/-- C4 as stated fails: the entry of "a" has `ExpiresAt = 50`; after a sweep whose scan
time is `now = 50` the map still holds an entry whose `ExpiresAt` is at or before `now`. -/
theorem CleanExpiredItems_keeps_boundary :
    IsRange ⟨Finmap.singleton "a" ⟨[104, 105], 50⟩⟩ [("a", 50)] ∧
    ∃ item, ((⟨Finmap.singleton "a" ⟨[104, 105], 50⟩⟩ : Cache).CleanExpiredItems
        [("a", 50)]).items.lookup "a" = some item ∧ item.ExpiresAt ≤ 50 :=
  ⟨by decide, ⟨[104, 105], 50⟩, by decide, by decide⟩

/-- C5. `CleanExpiredItems` does not change what `Get` shows: for every cache state,
every key `k`, every sweep whose clock readings are all at or before `t'`, and check
time `t'`, `Get(k)` at `t'` on the swept state returns the same pair as `Get(k)` at `t'`
on the state before the sweep. -/
theorem CleanExpiredItems_Get (c : Cache) (visits : List (String × Time)) (k : String)
    (t' : Time) (hclock : ∀ kt ∈ visits, kt.2 ≤ t') :
    (c.CleanExpiredItems visits).Get k t' = c.Get k t' := by
  cases hl : c.items.lookup k with
  | none =>
    rw [Get_of_lookup_none c k t' hl,
      Get_of_lookup_none _ k t' (lookup_CleanExpiredItems_none c visits k hl)]
  | some item =>
    have hsw := lookup_CleanExpiredItems_some c visits k item hl
    rw [Get_of_lookup_some c k t' item hl]
    by_cases hall : ∀ kt ∈ visits, kt.1 = k → kt.2 ≤ item.ExpiresAt
    · rw [if_pos hall] at hsw
      rw [Get_of_lookup_some _ k t' item hsw]
    · rw [if_neg hall] at hsw
      rw [Get_of_lookup_none _ k t' hsw]
      have hexp : ¬ t' ≤ item.ExpiresAt := by
        intro hle
        exact hall (fun kt hkt _ => le_trans (hclock kt hkt) hle)
      rw [if_neg hexp]

/-- C5, concrete evidence: "a" expires at 50 and "b" at 60; after a sweep reading 55 and
56, `Get` at 58 answers for "a" and for "b" as it does on the state before the sweep. -/
theorem CleanExpiredItems_Get_witness :
    (sampleCache.CleanExpiredItems [("b", 55), ("a", 56)]).Get "a" 58 = ([], false) ∧
    (sampleCache.CleanExpiredItems [("b", 55), ("a", 56)]).Get "b" 58 = ([105], true) := by
  have ha := CleanExpiredItems_Get sampleCache [("b", 55), ("a", 56)] "a" 58 (by decide)
  have hb := CleanExpiredItems_Get sampleCache [("b", 55), ("a", 56)] "b" 58 (by decide)
  exact ⟨ha.trans (by decide), hb.trans (by decide)⟩

/-- C6, P2 overwrite semantics. The state after `SetWithArrow(k, v1, ttl1)` at `t1`
followed by `SetWithArrow(k, v2, ttl2)` at `t2` equals the state after
`SetWithArrow(k, v2, ttl2)` at `t2` alone; every later `Get(k)` returns `(v2, true)` or
`(nil, false)` according to `t2 + ttl2` only. -/
theorem SetWithArrow_overwrite (c : Cache) (k : String) (v1 v2 : Bytes)
    (ttl1 ttl2 : Duration) (t1 t2 : Time) :
    (c.SetWithArrow k v1 ttl1 t1).SetWithArrow k v2 ttl2 t2 = c.SetWithArrow k v2 ttl2 t2 ∧
    ∀ t, ((c.SetWithArrow k v1 ttl1 t1).SetWithArrow k v2 ttl2 t2).Get k t
      = if t ≤ t2 + ttl2 then (v2, true) else ([], false) := by
  refine ⟨?_, fun t => ?_⟩
  · apply Cache.eq_of_items
    rw [items_SetWithArrow, items_SetWithArrow, items_SetWithArrow, Finmap.insert_insert]
  · exact Get_of_lookup_some _ k t ⟨v2, t2 + ttl2⟩ (lookup_SetWithArrow_self _ k v2 ttl2 t2)

/-- C6, the scenario of the spec: `set("x", "1", 1s)`, `set("x", "2", 1s)`, then
`get("x")` returns `("2", true)` (the bytes of "1" and "2" are 49 and 50, a second is
1000000000 nanoseconds; the sets run at 0 and 1, the get at 2). -/
theorem SetWithArrow_overwrite_witness :
    ((NewCache.SetWithArrow "x" [49] 1000000000 0).SetWithArrow "x" [50] 1000000000 1).Get "x" 2
      = ([50], true) :=
  ((SetWithArrow_overwrite NewCache "x" [49] [50] 1000000000 1000000000 0 1).2 2).trans
    (by decide)

/-- C7, P4 isolation. For keys `j ≠ k`, `SetWithArrow(k, v, ttl)` leaves the entry stored
for `j` (or its absence) unchanged, and `Get(j)` at any time returns the same result
before and after the set. -/
theorem SetWithArrow_isolation (c : Cache) (k j : String) (v : Bytes) (ttl : Duration)
    (now : Time) (hjk : j ≠ k) :
    (c.SetWithArrow k v ttl now).items.lookup j = c.items.lookup j ∧
    ∀ t, (c.SetWithArrow k v ttl now).Get j t = c.Get j t :=
  ⟨lookup_SetWithArrow_ne c k v ttl now j hjk,
   fun t => Get_congr _ _ j t (lookup_SetWithArrow_ne c k v ttl now j hjk)⟩

/-- C7, concrete evidence: setting "a" leaves the entry of "b" and the absence of "z". -/
theorem SetWithArrow_isolation_witness :
    (sampleCache.SetWithArrow "a" [1, 2] 7 100).items.lookup "b" = some ⟨[105], 60⟩ ∧
    (sampleCache.SetWithArrow "a" [1, 2] 7 100).items.lookup "z" = none :=
  ⟨((SetWithArrow_isolation sampleCache "a" "b" [1, 2] 7 100 (by decide)).1).trans (by decide),
   ((SetWithArrow_isolation sampleCache "a" "z" [1, 2] 7 100 (by decide)).1).trans (by decide)⟩

/-- C8, P3 sweep safety. Once `SetWithArrow(k, v, ttl)` has executed at time `t0`, then
along every sequence of atomic steps made of sets on other keys, gets and sweeps whose
clock readings `t` satisfy `t0 <= t < t0 + ttl`, at every point of the sequence the map
holds for `k` the entry `(v, t0 + ttl)`; and a sweep whose clock readings are at or
before `t` leaves every entry with `ExpiresAt` after `t` in the map, unchanged. -/
theorem sweep_safety (c : Cache) (k : String) (v : Bytes) (ttl : Duration) (t0 : Time)
    (ops : List Op)
    (hops : ∀ op ∈ ops, Op.isSetOn k op = false)
    (hclock : ∀ op ∈ ops, ∀ t ∈ Op.sweepReadings op, t0 ≤ t ∧ t < t0 + ttl) :
    (∀ n, (run (c.SetWithArrow k v ttl t0) (ops.take n)).items.lookup k
      = some ⟨v, t0 + ttl⟩) ∧
    (∀ (d : Cache) (visits : List (String × Time)) (t : Time) (j : String) (item : CacheItem),
      (∀ kt ∈ visits, kt.2 ≤ t) → d.items.lookup j = some item → t < item.ExpiresAt →
      (d.CleanExpiredItems visits).items.lookup j = some item) := by
  constructor
  · intro n
    apply lookup_run_live _ k _ _ (lookup_SetWithArrow_self c k v ttl t0)
    · exact fun op hop => hops op (List.mem_of_mem_take hop)
    · exact fun op hop t ht => le_of_lt (hclock op (List.mem_of_mem_take hop) t ht).2
  · intro d visits t j item hvis hl hlt
    rw [lookup_CleanExpiredItems_some d visits j item hl, if_pos]
    exact fun kt hkt _ => le_trans (hvis kt hkt) (le_of_lt hlt)

/-- C8, concrete evidence: "k" is set for 100 at time 10; a sweep at 20, a set on "b" at
30 and a sweep at 109 follow; the entry of "k" is there after them. -/
theorem sweep_safety_witness :
    (run (sampleCache.SetWithArrow "k" [7] 100 10)
      [.clean [("k", 20), ("a", 20), ("b", 21)], .set "b" [9] 1 30,
       .clean [("b", 108), ("k", 109)]]).items.lookup "k" = some ⟨[7], 110⟩ :=
  (sweep_safety sampleCache "k" [7] 100 10
    [.clean [("k", 20), ("a", 20), ("b", 21)], .set "b" [9] 1 30,
     .clean [("b", 108), ("k", 109)]] (by decide) (by decide)).1 3

/-- C9, P5 in sequential form (no lost updates). For every list of `N` (key, value) pairs
with pairwise distinct keys, each with the clock reading of its set, after applying
`SetWithArrow(key_i, value_i, ttl)` for all `i` in any order starting from `NewCache()`,
`Get(key_i)` checked at any time before every entry's expiry returns `(value_i, true)`
for every `i`, and the map holds exactly `N` entries. -/
theorem no_lost_updates (ttl : Duration) (sets order : List (String × Bytes × Time))
    (hdistinct : (sets.map (fun x => x.1)).Nodup) (horder : order.Perm sets) :
    (∀ x ∈ sets, ∀ t, (∀ y ∈ sets, t < y.2.2 + ttl) →
      (setAll NewCache ttl order).Get x.1 t = (x.2.1, true)) ∧
    (setAll NewCache ttl order).len = sets.length := by
  have hnodup : (order.map (fun x => x.1)).Nodup :=
    (List.Perm.nodup_iff (horder.map _)).mpr hdistinct
  constructor
  · intro x hx t ht
    have hl := lookup_setAll_of_mem NewCache ttl order hnodup x (horder.mem_iff.mpr hx)
    rw [Get_of_lookup_some _ x.1 t _ hl, if_pos (le_of_lt (ht x hx))]
  · unfold Cache.len
    rw [keys_setAll]
    have hempty : NewCache.items.keys = ∅ := Finmap.keys_empty
    rw [hempty, Finset.empty_union, List.toFinset_card_of_nodup hnodup, List.length_map]
    exact horder.length_eq

/-- C9, concrete evidence: the sets of `BenchmarkSet` for three connections (value
"some data", one minute), taking the lock in the order 2, 0, 1. -/
theorem no_lost_updates_witness :
    (setAll NewCache 60000000000
      [("key2", [115, 111, 109, 101, 32, 100, 97, 116, 97], 9),
       ("key0", [115, 111, 109, 101, 32, 100, 97, 116, 97], 5),
       ("key1", [115, 111, 109, 101, 32, 100, 97, 116, 97], 3)]).Get "key1" 1000
      = ([115, 111, 109, 101, 32, 100, 97, 116, 97], true) ∧
    (setAll NewCache 60000000000
      [("key2", [115, 111, 109, 101, 32, 100, 97, 116, 97], 9),
       ("key0", [115, 111, 109, 101, 32, 100, 97, 116, 97], 5),
       ("key1", [115, 111, 109, 101, 32, 100, 97, 116, 97], 3)]).len = 3 := by
  have h := no_lost_updates 60000000000
    [("key0", [115, 111, 109, 101, 32, 100, 97, 116, 97], 5),
     ("key1", [115, 111, 109, 101, 32, 100, 97, 116, 97], 3),
     ("key2", [115, 111, 109, 101, 32, 100, 97, 116, 97], 9)]
    [("key2", [115, 111, 109, 101, 32, 100, 97, 116, 97], 9),
     ("key0", [115, 111, 109, 101, 32, 100, 97, 116, 97], 5),
     ("key1", [115, 111, 109, 101, 32, 100, 97, 116, 97], 3)]
    (by decide) (by decide)
  exact ⟨h.1 ("key1", [115, 111, 109, 101, 32, 100, 97, 116, 97], 3) (by decide) 1000
    (by decide), h.2⟩

/-- C10. Expired entries are reclaimed by a sweep: after `SetWithArrow(k, v, ttl)` at time
`t0`, any steps that do not set `k`, and then a `CleanExpiredItems()` that visits every
key of the map and reads the clock after `t0 + ttl`, the map holds no entry for `k`. -/
theorem expired_entry_reclaimed (c : Cache) (k : String) (v : Bytes) (ttl : Duration)
    (t0 : Time) (ops : List Op) (visits : List (String × Time))
    (hops : ∀ op ∈ ops, Op.isSetOn k op = false)
    (hrange : IsRange (run (c.SetWithArrow k v ttl t0) ops) visits)
    (hclock : ∀ kt ∈ visits, t0 + ttl < kt.2) :
    ((run (c.SetWithArrow k v ttl t0) ops).CleanExpiredItems visits).items.lookup k = none ∧
    k ∉ ((run (c.SetWithArrow k v ttl t0) ops).CleanExpiredItems visits).items := by
  have hnone : ((run (c.SetWithArrow k v ttl t0) ops).CleanExpiredItems visits).items.lookup k
      = none := by
    rcases lookup_run_noSet (c.SetWithArrow k v ttl t0) k ops hops with h | h
    · exact lookup_CleanExpiredItems_none _ visits k h
    · have hl := h.trans (lookup_SetWithArrow_self c k v ttl t0)
      rw [lookup_CleanExpiredItems_some _ visits k _ hl, if_neg]
      intro hall
      have hmem : k ∈ (visits.map Prod.fst).toFinset := by
        rw [hrange.2, Finmap.mem_keys]
        exact Finmap.mem_of_lookup_eq_some hl
      obtain ⟨kt, hkt, hk⟩ := List.mem_map.mp (List.mem_toFinset.mp hmem)
      exact absurd (hall kt hkt hk) (not_le.mpr (hclock kt hkt))
  exact ⟨hnone, Finmap.lookup_eq_none.mp hnone⟩

/-- C10, the scenario of the spec: `set("a", "hello", 50ms)` at time 0, a get at once and a
get after 60ms, then `cleanExpired()` at 60ms: no entry for "a" is left (a millisecond is
1000000 nanoseconds). -/
theorem expired_entry_reclaimed_witness :
    ((run (NewCache.SetWithArrow "a" [104, 101, 108, 108, 111] 50000000 0)
        [.get "a" 0, .get "a" 60000000]).CleanExpiredItems [("a", 60000001)]).items.lookup "a"
      = none ∧
    ((run (NewCache.SetWithArrow "a" [104, 101, 108, 108, 111] 50000000 0)
        [.get "a" 0, .get "a" 60000000]).CleanExpiredItems [("a", 60000001)]).len = 0 :=
  ⟨(expired_entry_reclaimed NewCache "a" [104, 101, 108, 108, 111] 50000000 0
      [.get "a" 0, .get "a" 60000000] [("a", 60000001)] (by decide) (by decide)
      (by decide)).1,
   by decide⟩

/-- C11. `Get` is a pure read: the map after `Get(key)` is the map before it, after one
`Get` and after any sequence of them; a `Get` that finds an expired entry returns
`(nil, false)` and leaves that entry in the map, and a sweep that runs afterwards at that
time removes it. -/
theorem Get_pure_read (c : Cache) (key : String) (now : Time) :
    Op.apply c (.get key now) = c ∧
    (∀ ops : List Op, (∀ op ∈ ops, Op.isGet op = true) → run c ops = c) ∧
    (∀ item, c.items.lookup key = some item → item.ExpiresAt < now →
      c.Get key now = ([], false) ∧
      (Op.apply c (.get key now)).items.lookup key = some item ∧
      ∀ visits, IsRange (Op.apply c (.get key now)) visits → (∀ kt ∈ visits, kt.2 = now) →
        ((Op.apply c (.get key now)).CleanExpiredItems visits).items.lookup key = none) := by
  refine ⟨rfl, ?_, ?_⟩
  · intro ops
    induction ops with
    | nil => intro _; rfl
    | cons op rest ih =>
      intro h
      have hop := h op (List.mem_cons_self _ _)
      cases op with
      | set key value ttl t => simp [Op.isGet] at hop
      | get k t => exact ih (fun o ho => h o (List.mem_cons_of_mem _ ho))
      | clean visits => simp [Op.isGet] at hop
  · intro item hl hexp
    refine ⟨?_, hl, ?_⟩
    · rw [Get_of_lookup_some c key now item hl, if_neg (not_le.mpr hexp)]
    · intro visits hrange hnow
      show (c.CleanExpiredItems visits).items.lookup key = none
      rw [lookup_CleanExpiredItems_some c visits key item hl, if_neg]
      intro hall
      have hmem : key ∈ (visits.map Prod.fst).toFinset := by
        rw [hrange.2]
        exact Finmap.mem_keys.mpr (Finmap.mem_of_lookup_eq_some hl)
      obtain ⟨kt, hkt, hk⟩ := List.mem_map.mp (List.mem_toFinset.mp hmem)
      have hle := hall kt hkt hk
      rw [hnow kt hkt] at hle
      exact absurd hle (not_le.mpr hexp)

/-- C11, concrete evidence: "a" expired at 50; a `Get("a")` at 55 answers `(nil, false)`,
the entry is still in the map after it, and a sweep at 55 removes it. -/
theorem Get_pure_read_witness :
    sampleCache.Get "a" 55 = ([], false) ∧
    (Op.apply sampleCache (.get "a" 55)).items.lookup "a" = some ⟨[104], 50⟩ ∧
    ((Op.apply sampleCache (.get "a" 55)).CleanExpiredItems
      [("a", 55), ("b", 55)]).items.lookup "a" = none := by
  have h := (Get_pure_read sampleCache "a" 55).2.2 ⟨[104], 50⟩ (by decide) (by decide)
  exact ⟨h.1, h.2.1, h.2.2 [("a", 55), ("b", 55)] (by decide) (by decide)⟩

/-- C12. A negative `ttl` is immediate expiry, not an error: for `ttl < 0`,
`SetWithArrow(k, v, ttl)` at `t0` installs the entry `(v, t0 + ttl)`, and `Get(k)` checked
at any time `t >= t0`, with no later set on `k`, returns `(nil, false)`. -/
theorem negative_ttl_expired (c : Cache) (k : String) (v : Bytes) (ttl : Duration)
    (t0 : Time) (ops : List Op) (t : Time) (hneg : ttl < 0) (ht : t0 ≤ t)
    (hops : ∀ op ∈ ops, Op.isSetOn k op = false) :
    (c.SetWithArrow k v ttl t0).items.lookup k = some ⟨v, t0 + ttl⟩ ∧
    (run (c.SetWithArrow k v ttl t0) ops).Get k t = ([], false) := by
  have hset := lookup_SetWithArrow_self c k v ttl t0
  refine ⟨hset, ?_⟩
  rcases lookup_run_noSet (c.SetWithArrow k v ttl t0) k ops hops with h | h
  · exact Get_of_lookup_none _ k t h
  · rw [Get_of_lookup_some _ k t ⟨v, t0 + ttl⟩ (h.trans hset), if_neg]
    intro hle
    have h1 : t0 + ttl < t0 := add_lt_iff_neg_left.mpr hneg
    exact absurd (le_trans ht hle) (not_le.mpr h1)

/-- C12, concrete evidence: "a" is set with a ttl of -5 at time 100; `Get("a")` at 100,
after a `Get` and a set on "b", answers `(nil, false)`. -/
theorem negative_ttl_expired_witness :
    (run (NewCache.SetWithArrow "a" [104, 105] (-5) 100)
      [.get "a" 100, .set "b" [1] 10 100]).Get "a" 100 = ([], false) :=
  (negative_ttl_expired NewCache "a" [104, 105] (-5) 100 [.get "a" 100, .set "b" [1] 10 100]
    100 (by decide) (by decide) (by decide)).2

/-- C15. Sets on different keys commute, and the last set per key wins: for `k1 ≠ k2`
the two orders of `SetWithArrow(k1, v1, ttl1)` stamped `t1` and `SetWithArrow(k2, v2, ttl2)`
stamped `t2` yield the same map; and after any finite sequence of sets the entry held for
a key is the one installed by the last set on that key in the sequence. -/
theorem SetWithArrow_comm_last_wins (c : Cache) (k1 k2 : String) (v1 v2 : Bytes)
    (ttl1 ttl2 : Duration) (t1 t2 : Time) (hne : k1 ≠ k2) :
    (c.SetWithArrow k1 v1 ttl1 t1).SetWithArrow k2 v2 ttl2 t2
      = (c.SetWithArrow k2 v2 ttl2 t2).SetWithArrow k1 v1 ttl1 t1 ∧
    ∀ (d : Cache) (before after : List (String × Bytes × Duration × Time))
      (x : String × Bytes × Duration × Time), (∀ y ∈ after, y.1 ≠ x.1) →
      (run d (setSeq (before ++ x :: after))).items.lookup x.1
        = some ⟨x.2.1, x.2.2.2 + x.2.2.1⟩ := by
  constructor
  · apply Cache.eq_of_items
    simp only [items_SetWithArrow]
    exact Finmap.insert_insert_of_ne _ hne
  · intro d before after x hafter
    have hsplit : setSeq (before ++ x :: after)
        = setSeq before ++ (Op.set x.1 x.2.1 x.2.2.1 x.2.2.2 :: setSeq after) := by
      simp [setSeq]
    rw [hsplit, run_append]
    show (run ((run d (setSeq before)).SetWithArrow x.1 x.2.1 x.2.2.1 x.2.2.2)
      (setSeq after)).items.lookup x.1 = _
    apply lookup_run_live _ x.1 _ _ (lookup_SetWithArrow_self _ x.1 x.2.1 x.2.2.1 x.2.2.2)
    · intro op hop
      obtain ⟨y, hy, rfl⟩ := List.mem_map.mp hop
      simpa [Op.isSetOn] using hafter y hy
    · intro op hop r hr
      obtain ⟨y, _, rfl⟩ := List.mem_map.mp hop
      simp [Op.sweepReadings] at hr

/-- C15, concrete evidence: two sets on "a" and "b" in both orders give the same map, and
after the sets a:=1, b:=2, a:=3, b:=4 the entry of "a" is the one of the third set. -/
theorem SetWithArrow_comm_last_wins_witness :
    (sampleCache.SetWithArrow "a" [1] 10 100).SetWithArrow "b" [2] 20 101
      = (sampleCache.SetWithArrow "b" [2] 20 101).SetWithArrow "a" [1] 10 100 ∧
    (run NewCache (setSeq [("a", [1], 10, 100), ("b", [2], 10, 101), ("a", [3], 30, 102),
      ("b", [4], 10, 103)])).items.lookup "a" = some ⟨[3], 132⟩ := by
  have h := SetWithArrow_comm_last_wins sampleCache "a" "b" [1] [2] 10 20 100 101 (by decide)
  exact ⟨h.1, h.2 NewCache [("a", [1], 10, 100), ("b", [2], 10, 101)] [("b", [4], 10, 103)]
    ("a", [3], 30, 102) (by decide)⟩

/-- C16. Expiry is a one-way function of time: on a fixed cache state, for `t <= t'`, if
`Get(k)` checked at `t'` returns `(v, true)` then `Get(k)` checked at `t` returns the same
`(v, true)`; and if `Get(k)` checked at `t` returns `(nil, false)`, so does `Get(k)`
checked at `t'`. -/
theorem Get_monotone_in_time (c : Cache) (k : String) (t t' : Time) (h : t ≤ t') :
    (∀ v, c.Get k t' = (v, true) → c.Get k t = (v, true)) ∧
    (c.Get k t = ([], false) → c.Get k t' = ([], false)) := by
  cases hl : c.items.lookup k with
  | none =>
    rw [Get_of_lookup_none c k t hl, Get_of_lookup_none c k t' hl]
    exact ⟨fun v hv => hv, fun hv => hv⟩
  | some item =>
    rw [Get_of_lookup_some c k t item hl, Get_of_lookup_some c k t' item hl]
    by_cases hle' : t' ≤ item.ExpiresAt
    · rw [if_pos hle', if_pos (le_trans h hle')]
      exact ⟨fun v hv => hv, fun hv => hv⟩
    · rw [if_neg hle']
      refine ⟨fun v hv => ?_, fun _ => rfl⟩
      simp at hv

/-- C16, concrete evidence: "b" expires at 60; it is found at 60, hence at 10; "a"
expired at 50 is not found at 51, hence not at 99. -/
theorem Get_monotone_in_time_witness :
    sampleCache.Get "b" 10 = ([105], true) ∧ sampleCache.Get "a" 99 = ([], false) :=
  ⟨(Get_monotone_in_time sampleCache "b" 10 60 (by decide)).1 [105] (by decide),
   (Get_monotone_in_time sampleCache "a" 51 99 (by decide)).2 (by decide)⟩

/-- C17. Sweeps compose and are idempotent: for `t <= t'`, a sweep at `t` followed by a
sweep at `t'` yields the same map as a single sweep at `t'`; sweeping twice at the same
time equals sweeping once; and the swept map is a sub-map of the original: every entry
it holds was there, unchanged. -/
theorem CleanExpiredItems_compose (c : Cache) (order1 order2 order3 : List String)
    (t t' : Time) :
    (t ≤ t' → IsRange (c.CleanExpiredItems (sweepAt order1 t)) (sweepAt order2 t') →
      IsRange c (sweepAt order3 t') →
      (c.CleanExpiredItems (sweepAt order1 t)).CleanExpiredItems (sweepAt order2 t')
        = c.CleanExpiredItems (sweepAt order3 t')) ∧
    (IsRange c (sweepAt order1 t) →
      IsRange (c.CleanExpiredItems (sweepAt order1 t)) (sweepAt order2 t) →
      (c.CleanExpiredItems (sweepAt order1 t)).CleanExpiredItems (sweepAt order2 t)
        = c.CleanExpiredItems (sweepAt order1 t)) ∧
    (∀ (visits : List (String × Time)) (k : String) (item : CacheItem),
      (c.CleanExpiredItems visits).items.lookup k = some item →
        c.items.lookup k = some item) := by
  have hcomp : ∀ (o1 o2 o3 : List String) (s s' : Time), s ≤ s' →
      IsRange (c.CleanExpiredItems (sweepAt o1 s)) (sweepAt o2 s') →
      IsRange c (sweepAt o3 s') →
      (c.CleanExpiredItems (sweepAt o1 s)).CleanExpiredItems (sweepAt o2 s')
        = c.CleanExpiredItems (sweepAt o3 s') := by
    intro o1 o2 o3 s s' hs h2 h3
    apply Cache.eq_of_items
    apply Finmap.ext_lookup
    intro j
    cases hl : c.items.lookup j with
    | none =>
      rw [lookup_CleanExpiredItems_none c _ j hl]
      exact lookup_CleanExpiredItems_none _ _ j (lookup_CleanExpiredItems_none c _ j hl)
    | some v =>
      have hj3 := mem_order_of_IsRange c o3 s' h3 j v hl
      rw [lookup_sweepAt_some c o3 s' j v hl]
      have h1 := lookup_sweepAt_some c o1 s j v hl
      by_cases hkeep : j ∈ o1 → s ≤ v.ExpiresAt
      · rw [if_pos hkeep] at h1
        have hj2 := mem_order_of_IsRange _ o2 s' h2 j v h1
        rw [lookup_sweepAt_some _ o2 s' j v h1]
        by_cases hle : s' ≤ v.ExpiresAt
        · rw [if_pos (fun _ => hle), if_pos (fun _ => hle)]
        · rw [if_neg (fun hh => hle (hh hj2)), if_neg (fun hh => hle (hh hj3))]
      · rw [if_neg hkeep] at h1
        rw [lookup_CleanExpiredItems_none _ _ j h1, if_neg]
        intro hh
        exact hkeep (fun _ => le_trans hs (hh hj3))
  refine ⟨hcomp order1 order2 order3 t t', ?_, ?_⟩
  · intro h1 h2
    exact hcomp order1 order2 order1 t t (le_refl t) h2 h1
  · intro visits k item hsw
    cases hl : c.items.lookup k with
    | none =>
      rw [lookup_CleanExpiredItems_none c visits k hl] at hsw
      cases hsw
    | some old =>
      rw [lookup_CleanExpiredItems_some c visits k old hl] at hsw
      by_cases hall : ∀ kt ∈ visits, kt.1 = k → kt.2 ≤ old.ExpiresAt
      · rw [if_pos hall] at hsw; exact hsw
      · rw [if_neg hall] at hsw; cases hsw

/-- C17, concrete evidence: on "a" (expiring at 50) and "b" (expiring at 60), a sweep at
55 followed by a sweep at 70 gives the map of a single sweep at 70, and a second sweep at
55 changes nothing. -/
theorem CleanExpiredItems_compose_witness :
    (sampleCache.CleanExpiredItems (sweepAt ["a", "b"] 55)).CleanExpiredItems (sweepAt ["b"] 70)
      = sampleCache.CleanExpiredItems (sweepAt ["b", "a"] 70) ∧
    (sampleCache.CleanExpiredItems (sweepAt ["a", "b"] 55)).CleanExpiredItems (sweepAt ["b"] 55)
      = sampleCache.CleanExpiredItems (sweepAt ["a", "b"] 55) := by
  have h1 := CleanExpiredItems_compose sampleCache ["a", "b"] ["b"] ["b", "a"] 55 70
  have h2 := CleanExpiredItems_compose sampleCache ["a", "b"] ["b"] ["b", "a"] 55 55
  exact ⟨h1.1 (by decide) (by decide) (by decide), h2.2.1 (by decide) (by decide)⟩

/-- C13 (amended). Value ownership: the slice stored by `SetWithArrow` does not alias the
caller's input slice, so no write by a caller to the slice it passed in changes what a
later `Get(key)` returns; the slice returned by `Get` is the stored `Value` itself, not a
copy, so a write by a caller through the slice it got back is what every later `Get(key)`
of that entry returns. -/
theorem value_ownership (c : MemCache) (key : String) (value : Slice) (ttl : Duration)
    (now t t' : Time) (i : Nat) (b : Fin 256) :
    (value.buf < c.memory.next →
      ∀ c2, (c.SetWithArrow key value ttl now).callerWrite value i b = some c2 →
        c2.GetBytes key t' = (c.SetWithArrow key value ttl now).GetBytes key t') ∧
    (∀ (d : MemCache) (item : SliceItem), d.items.lookup key = some item →
      t ≤ item.ExpiresAt → d.Get key t = (item.Value, true)) ∧
    (t ≤ now + ttl → t' ≤ now + ttl → i < (c.memory.read value).length →
      ∃ c2, (c.SetWithArrow key value ttl now).callerWrite
          ((c.SetWithArrow key value ttl now).Get key t).1 i b = some c2 ∧
        c2.GetBytes key t' = ((c.memory.read value).set i b, true)) := by
  have hl := MemCache.lookup_SetWithArrow c key value ttl now
  have harr := MemCache.arrays_SetWithArrow c key value ttl now
  have hg : ∀ m : Memory,
      (⟨m, (c.SetWithArrow key value ttl now).items⟩ : MemCache).Get key t'
        = (c.SetWithArrow key value ttl now).Get key t' := fun _ => rfl
  refine ⟨?_, ?_, ?_⟩
  · intro hin c2 hw
    by_cases hi : i < value.len
    · simp only [MemCache.callerWrite, Memory.write, if_pos hi, Option.map_some',
        Option.some.injEq] at hw
      subst hw
      have hne : c.memory.next ≠ value.buf := Nat.ne_of_gt hin
      simp only [MemCache.GetBytes]
      rw [hg, MemCache.Get_of_items_lookup (c.SetWithArrow key value ttl now) key t' _ hl]
      by_cases ht' : t' ≤ now + ttl
      · rw [if_pos ht']
        simp only [Memory.read, Function.update_noteq hne]
      · rw [if_neg ht']
        simp only [Memory.read_nil]
    · simp [MemCache.callerWrite, Memory.write, hi] at hw
  · intro d item hd hle
    rw [MemCache.Get_of_items_lookup d key t item hd, if_pos hle]
  · intro ht ht' hi
    rw [MemCache.Get_of_items_lookup _ key t _ hl, if_pos ht]
    have hw : (c.SetWithArrow key value ttl now).callerWrite
          ⟨c.memory.next, 0, (c.memory.read value).length⟩ i b
        = some ⟨⟨Function.update (c.SetWithArrow key value ttl now).memory.arrays c.memory.next
            (((c.SetWithArrow key value ttl now).memory.arrays c.memory.next).set (0 + i) b),
            (c.SetWithArrow key value ttl now).memory.next⟩,
            (c.SetWithArrow key value ttl now).items⟩ := by
      simp only [MemCache.callerWrite, Memory.write, if_pos hi, Option.map_some']
    refine ⟨_, hw, ?_⟩
    simp only [MemCache.GetBytes]
    rw [hg, MemCache.Get_of_items_lookup (c.SetWithArrow key value ttl now) key t' _ hl,
      if_pos ht']
    simp only [Memory.read, Function.update_same, harr, Nat.zero_add, List.drop_zero]
    rw [List.take_of_length_le (by simp)]

/-- C13, concrete evidence: "a" is set from the slice of "hi" at address 0; a write to
that input slice afterwards leaves what `Get("a")` shows. -/
theorem value_ownership_witness :
    ∃ c2, (sampleMemCache.SetWithArrow "a" ⟨0, 0, 2⟩ 50 0).callerWrite ⟨0, 0, 2⟩ 0 88 = some c2 ∧
      c2.GetBytes "a" 2 = ([104, 105], true) := by
  have h := (value_ownership sampleMemCache "a" ⟨0, 0, 2⟩ 50 0 1 2 0 88).1 (by decide)
  refine ⟨_, rfl, (h _ rfl).trans (by decide)⟩

/-- C13 as stated fails: "a" is set to the bytes of "hi"; a caller takes the slice that
`Get("a")` returns and assigns 88 to its first byte; `Get("a")` then shows the bytes
88, 105, where the claim has it show 104, 105 as before. -/
theorem Get_returns_alias :
    (sampleMemCache.SetWithArrow "a" ⟨0, 0, 2⟩ 50 0).GetBytes "a" 1 = ([104, 105], true) ∧
    ∃ c2, (sampleMemCache.SetWithArrow "a" ⟨0, 0, 2⟩ 50 0).callerWrite
        ((sampleMemCache.SetWithArrow "a" ⟨0, 0, 2⟩ 50 0).Get "a" 1).1 0 88 = some c2 ∧
      c2.GetBytes "a" 2 = ([88, 105], true) ∧
      c2.GetBytes "a" 2 ≠ (sampleMemCache.SetWithArrow "a" ⟨0, 0, 2⟩ 50 0).GetBytes "a" 2 := by
  refine ⟨by decide, _, rfl, by decide, by decide⟩

end ArrowCache
